import Mathlib

/-!
Verification of the `pylinq` Enumerable engine (`src/pylinq/enumerable.py`).

The engine wraps either a materialized sequence (a Python `list`/`tuple`,
copied on construction) or a streaming single-pass iterator.  We embed an
instance as an `Enum`: `mat xs` holds the owned list, `str rem` holds the
elements the shared iterator has not yet produced.  Operations that pull from
a streaming instance return the updated instance alongside their result.
Python exceptions are embedded as the `PyErr` error type and fallible
operations return `Except PyErr`.
-/

namespace PyLinq

/-- The Python exceptions the engine can signal.
`stopIteration` is raised by iterator exhaustion (`first`, `islice` based
indexing), `indexError` by list indexing out of bounds, `valueError` by
`itertools.islice` on negative bounds, `typeErrorEmptyReduce` by
`functools.reduce` on an empty iterable with no initial value,
`runtimeError` by the PEP 479 conversion of a `StopIteration` escaping a
generator frame, and `clientError` stands for an arbitrary exception raised
by a client-supplied callable. -/
inductive PyErr where
  | stopIteration
  | indexError
  | valueError
  | typeErrorEmptyReduce
  | runtimeError
  | clientError (code : Nat)
deriving DecidableEq, Repr

/-- An `IEnumerable` instance.  `mat xs`: `self._iterable` is a list (the
list/tuple branch of the constructor copies the source into an owned list).
`str rem`: `self._iterable` is an iterator whose remaining elements are
`rem`; `__iter__` returns that same iterator, so every pull advances the
shared cursor irreversibly. -/
inductive Enum (T : Type) where
  | mat : List T → Enum T
  | str : List T → Enum T
deriving DecidableEq, Repr

variable {T : Type}

/-- The elements one full iteration of the instance yields from its current
position: the whole owned list for `mat`, the remaining elements for `str`. -/
def enumElems : Enum T → List T
  | .mat xs => xs
  | .str rem => rem

/-- `IEnumerable.__bool__`: `next(iter(self))` inside try/except
StopIteration.  For `mat`, `iter(self)` is a fresh iterator, so nothing is
consumed.  For `str`, `iter(self)` is the shared iterator itself, so the
successful `next` permanently removes the first remaining element. -/
def pyBool : Enum T → Bool × Enum T
  | .mat xs => (!xs.isEmpty, .mat xs)
  | .str [] => (false, .str [])
  | .str (_ :: rest) => (true, .str rest)

/-- `IEnumerable.to_list`: `list(self._iterable)` for the list branch
(no consumption), `list(self)` for the iterator branch (drains the shared
iterator, leaving it exhausted). -/
def to_list : Enum T → List T × Enum T
  | .mat xs => (xs, .mat xs)
  | .str rem => (rem, .str [])

/-- Python list slice `xs[:c]` for an `Int` bound `c`: a negative bound
counts from the end (clamped at 0), a bound past the length is clamped. -/
def pySliceTake (xs : List T) (c : Int) : List T :=
  if 0 ≤ c then xs.take c.toNat else xs.take (xs.length - (-c).toNat)

/-- Python list slice `xs[c:]` for an `Int` bound `c`: a negative bound
counts from the end (clamped at 0), a bound past the length yields `[]`. -/
def pySliceDrop (xs : List T) (c : Int) : List T :=
  if 0 ≤ c then xs.drop c.toNat else xs.drop (xs.length - (-c).toNat)

/-- `IEnumerable.take`: the list branch returns `IEnumerable(xs[:count])`;
the iterator branch returns `IEnumerable(islice(it, count))`, and
`itertools.islice` raises `ValueError` immediately when `count` is negative.
The streaming result is described by the elements it will yield when it is
the only consumer of the shared iterator. -/
def take : Enum T → Int → Except PyErr (Enum T)
  | .mat xs, c => .ok (.mat (pySliceTake xs c))
  | .str rem, c => if c < 0 then .error .valueError else .ok (.str (rem.take c.toNat))

/-- `IEnumerable.skip`: the list branch returns `IEnumerable(xs[count:])`;
the iterator branch returns `IEnumerable(islice(it, count, None))`, and
`itertools.islice` raises `ValueError` immediately when `count` is negative. -/
def skip : Enum T → Int → Except PyErr (Enum T)
  | .mat xs, c => .ok (.mat (pySliceDrop xs c))
  | .str rem, c => if c < 0 then .error .valueError else .ok (.str (rem.drop c.toNat))

/-- `IEnumerable.__add__`: `IEnumerable(chain(self, other))` — a streaming
result producing this instance's elements followed by the other's.  Faithful
when the two operands do not share an underlying iterator (e.g. both
materialized); the shared-iterator composite is modelled separately. -/
def pyAdd (a b : Enum T) : Enum T := .str (enumElems a ++ enumElems b)

/-- Runtime behavior of `(S.take(n) + S.skip(n)).to_list()` when `S` is
streaming with remaining elements `xs` and `0 ≤ n`.  Both `islice` windows
wrap the same shared iterator.  `chain` first drains `islice(it, n)`, which
pulls the first `min n (length xs)` elements; it then drains
`islice(it, n, None)`, which discards `n` further elements of the same
iterator before yielding the rest. -/
def take_add_skip_str (xs : List T) (n : Nat) : List T :=
  let out₁ := xs.take n
  let rem₁ := xs.drop n
  out₁ ++ rem₁.drop n

/-- Python list indexing `xs[i]`: a negative index counts from the end;
out of range raises `IndexError`. -/
def pyListGet (xs : List T) (i : Int) : Except PyErr T :=
  let j : Int := if 0 ≤ i then i else (xs.length : Int) + i
  if 0 ≤ j then
    match xs.get? j.toNat with
    | some v => .ok v
    | none => .error .indexError
  else .error .indexError

/-- `IEnumerable.__getitem__` with an `int` index.  List branch: direct
Python list indexing, nothing consumed.  Iterator branch: a negative index
runs `self.to_list()[index]` (draining the iterator); a non-negative index
runs `next(islice(it, index, index + 1))`, which consumes `index + 1`
elements and yields the last one, or raises `StopIteration` after draining
the iterator when fewer remain. -/
def getItemInt : Enum T → Int → (Except PyErr T) × Enum T
  | .mat xs, i => (pyListGet xs i, .mat xs)
  | .str rem, i =>
    if i < 0 then (pyListGet rem i, .str [])
    else
      match rem.get? i.toNat with
      | some v => (.ok v, .str (rem.drop (i.toNat + 1)))
      | none => (.error .stopIteration, .str [])

/-- `IEnumerable.__eq__`: `all(a == b for a, b in zip(self, other))` —
pairwise comparison that stops at the shorter operand. -/
def pyEq [DecidableEq T] (a b : Enum T) : Bool :=
  ((enumElems a).zip (enumElems b)).all fun p => decide (p.1 = p.2)

/-- The generator expression `(item for item in self if predicate(item))`
driven by `next`: scan for the first element the predicate accepts.  The
predicate is a client callable that may itself raise (`Except` result); by
PEP 479 a `StopIteration` escaping the generator frame is converted to
`RuntimeError`, any other exception propagates unchanged.  Exhaustion with
no match makes `next` raise `StopIteration`. -/
def findFirst (p : T → Except PyErr Bool) : List T → Except PyErr T
  | [] => .error .stopIteration
  | x :: xs =>
    match p x with
    | .error .stopIteration => .error .runtimeError
    | .error e => .error e
    | .ok true => .ok x
    | .ok false => findFirst p xs

/-- `IEnumerable.first`: with no predicate, `next(iter(self))`, raising
`StopIteration` on an empty source; with a predicate, the first accepted
element via the generator expression. -/
def first (pred : Option (T → Except PyErr Bool)) (e : Enum T) : Except PyErr T :=
  match pred with
  | none =>
    match enumElems e with
    | [] => .error .stopIteration
    | x :: _ => .ok x
  | some p => findFirst p (enumElems e)

/-- `IEnumerable.first_or_default`: `self.first(predicate)` inside
try/except StopIteration, returning `default` exactly when `first` raised
`StopIteration`; every other exception propagates. -/
def first_or_default (d : T) (pred : Option (T → Except PyErr Bool)) (e : Enum T) :
    Except PyErr T :=
  match first pred e with
  | .error .stopIteration => .ok d
  | r => r

/-- `functools.reduce(func, iterable)` with no initial value: left fold
seeded with the first element; raises `TypeError` on an empty iterable. -/
def pyReduce (f : T → T → T) : List T → Except PyErr T
  | [] => .error .typeErrorEmptyReduce
  | x :: xs => .ok (xs.foldl f x)

/-- `IEnumerable.aggregate(func, seed=None)`: the code tests `seed is None`
and runs `reduce(func, self)` in that case, `reduce(func, self, seed)`
otherwise.  The seed parameter is embedded as `Option T` with `none`
standing for the Python `None` default. -/
def aggregate (f : T → T → T) (seed : Option T) (e : Enum T) : Except PyErr T :=
  match seed with
  | none => pyReduce f (enumElems e)
  | some s => .ok ((enumElems e).foldl f s)

/-- Calling `aggregate(func)` with the seed argument omitted: Python fills
in the declared default `None`. -/
def aggregateNoSeedCall (f : T → T → T) (e : Enum T) : Except PyErr T :=
  aggregate f none e

variable {R : Type}

/-- One step of the `group_by` dict loop: `groups[key].append(item)`,
creating `groups[key] = []` first when absent.  A Python dict preserves
insertion order, embedded as an association list where a fresh key goes to
the end. -/
def insertGroup [DecidableEq R] (gs : List (R × List T)) (c : R) (x : T) :
    List (R × List T) :=
  match gs with
  | [] => [(c, [x])]
  | (c₀, g) :: rest =>
    if c₀ = c then (c₀, g ++ [x]) :: rest else (c₀, g) :: insertGroup rest c x

/-- `IEnumerable.group_by`: the `for item in self` loop builds the dict,
fully consuming the source; the returned enumerable yields the
`(key, group)` pairs in dict (insertion) order, each group materialized.
We model the yielded pairs, each group by its element list. -/
def group_by [DecidableEq R] (k : T → R) (e : Enum T) : List (R × List T) :=
  (enumElems e).foldl (fun gs x => insertGroup gs (k x) x) []

/-- The group stored under key `c` in the association list (`[]` when the
key is absent) — the lookup a Python dict performs. -/
def groupOf [DecidableEq R] (gs : List (R × List T)) (c : R) : List T :=
  match gs with
  | [] => []
  | (c₀, g) :: rest => if c₀ = c then g else groupOf rest c

/-- `IEnumerable.aggregate` as seen by a Python caller whose element type is
`Optional[U]`: the annotation `Optional[T]` collapses to `Optional[U]`, so
the single runtime value `None` serves both as "no seed given" and as the
element-type value `None`; the `seed is None` test cannot distinguish them
and `none` always takes the no-seed `reduce` path. -/
def aggregateOptional {U : Type} (f : Option U → Option U → Option U)
    (seed : Option U) (e : Enum (Option U)) : Except PyErr (Option U) :=
  match seed with
  | none => pyReduce f (enumElems e)
  | some u => .ok ((enumElems e).foldl f (some u))

/-- Helper for stating first-occurrence order: drop the elements already in
`seen`, keep the first occurrence of each later value. -/
def seenDedup [DecidableEq R] (seen : List R) : List R → List R
  | [] => []
  | c :: cs => if c ∈ seen then seenDedup seen cs else c :: seenDedup (c :: seen) cs

/-- The distinct values of a list in order of first occurrence. -/
def firstOccurrences [DecidableEq R] (cs : List R) : List R := seenDedup [] cs

/-- `IEnumerable.order_by`: `IEnumerable(sorted(self, key=key_selector))`.
Python `sorted` is a stable non-decreasing sort by key; modelled by stable
insertion sort under the key-comparison relation (stable sorts under the
same total key preorder produce identical output). -/
def order_by {K : Type} [LinearOrder K] (k : T → K) (e : Enum T) : Enum T :=
  .mat (List.insertionSort (fun a b => k a ≤ k b) (enumElems e))

/-! ## Helper lemmas -/

theorem zip_self_append_all_eq [DecidableEq T] :
    ∀ (xs t : List T), ((xs.zip (xs ++ t)).all fun p => decide (p.1 = p.2)) = true
  | [], _ => rfl
  | x :: xs, t => by
    simp only [List.cons_append, List.zip_cons_cons, List.all_cons, Bool.and_eq_true,
      decide_eq_true_eq]
    exact ⟨trivial, zip_self_append_all_eq xs t⟩

theorem zip_append_self_all_eq [DecidableEq T] :
    ∀ (xs t : List T), (((xs ++ t).zip xs).all fun p => decide (p.1 = p.2)) = true
  | [], _ => by simp
  | x :: xs, t => by
    simp only [List.cons_append, List.zip_cons_cons, List.all_cons, Bool.and_eq_true,
      decide_eq_true_eq]
    exact ⟨trivial, zip_append_self_all_eq xs t⟩

theorem findFirst_all_false (p : T → Except PyErr Bool) :
    ∀ l : List T, (∀ x ∈ l, p x = .ok false) → findFirst p l = .error .stopIteration
  | [], _ => rfl
  | x :: xs, h => by
    rw [findFirst, h x (List.mem_cons_self x xs)]
    exact findFirst_all_false p xs fun y hy => h y (List.mem_cons_of_mem x hy)

/-! ## Claim theorems -/

/-- C1: on a Streaming instance holding at least one element, `__bool__`
returns `True` but permanently consumes the first element: the code side of
the spec's requirement that truthiness must peek.  At the failing input
(streaming source with remaining elements `[1]`) the post-check full
iteration yields `[]`, not `[1]` from position 0 as the claim requires. -/
theorem bool_streaming_consumes :
    (pyBool (Enum.str ([1] : List Nat))).1 = true ∧
    (to_list (pyBool (Enum.str ([1] : List Nat))).2).1 = [] ∧
    (to_list (pyBool (Enum.str ([1] : List Nat))).2).1 ≠ [1] :=
  ⟨rfl, rfl, by decide⟩

/-- C2 (counterexample): on a Streaming instance, `take(-1)` and `skip(-1)`
do not return a new Enumerable — `itertools.islice` signals `ValueError` on
a negative count, refuting the claim that every integer `n` is valid for
both representations. -/
theorem take_negative_streaming_cex :
    take (Enum.str ([1] : List Nat)) (-1) = .error .valueError ∧
    skip (Enum.str ([1] : List Nat)) (-1) = .error .valueError :=
  ⟨rfl, rfl⟩

/-- C2 (amended): for every Enumerable and every `n ≥ 0`, `take`/`skip`
return a new Enumerable without error, `take 0` yields the empty sequence,
`skip 0` yields everything, and `n` beyond the length is clamped (`take`
yields all of S, `skip` yields the empty sequence); negative `n` is valid
only for the Materialized representation, where Python slice semantics
apply. -/
theorem take_skip_nonneg (e : Enum T) (n : Int) (h : 0 ≤ n) :
    (take e n).map enumElems = .ok ((enumElems e).take n.toNat) ∧
    (skip e n).map enumElems = .ok ((enumElems e).drop n.toNat) ∧
    ((enumElems e).length ≤ n.toNat →
      (enumElems e).take n.toNat = enumElems e ∧ (enumElems e).drop n.toNat = []) ∧
    (∀ (xs : List T) (m : Int),
      (∃ e₁, take (Enum.mat xs) m = .ok e₁) ∧ ∃ e₂, skip (Enum.mat xs) m = .ok e₂) := by
  refine ⟨?_, ?_, fun hlen => ⟨List.take_of_length_le hlen, List.drop_of_length_le hlen⟩,
    fun xs m => ⟨⟨_, rfl⟩, ⟨_, rfl⟩⟩⟩
  · cases e with
    | mat xs => simp [take, pySliceTake, h, enumElems, Except.map]
    | str rem => simp [take, not_lt.mpr h, enumElems, Except.map]
  · cases e with
    | mat xs => simp [skip, pySliceDrop, h, enumElems, Except.map]
    | str rem => simp [skip, not_lt.mpr h, enumElems, Except.map]

theorem take_skip_nonneg_witness :
    (take (Enum.str ([1, 2] : List Nat)) 5).map enumElems = .ok [1, 2] ∧
    (skip (Enum.str ([1, 2] : List Nat)) 5).map enumElems = .ok [] := by
  have h := take_skip_nonneg (Enum.str ([1, 2] : List Nat)) 5 (by decide)
  exact ⟨h.1.trans rfl, h.2.1.trans rfl⟩

/-- C3: `aggregate` with no seed is the left fold seeded with the first
element, signalling the empty-sequence condition (the `TypeError` raised by
`functools.reduce`) on an empty source; with a seed it is the left fold
from the seed. -/
theorem aggregate_fold (f : T → T → T) (e : Enum T) :
    (enumElems e = [] → aggregate f none e = .error .typeErrorEmptyReduce) ∧
    (∀ x xs, enumElems e = x :: xs → aggregate f none e = .ok (xs.foldl f x)) ∧
    (∀ s, aggregate f (some s) e = .ok ((enumElems e).foldl f s)) := by
  refine ⟨fun h => ?_, fun x xs h => ?_, fun s => rfl⟩
  · simp [aggregate, h, pyReduce]
  · simp [aggregate, h, pyReduce]

theorem aggregate_fold_witness :
    aggregate (· + ·) none (Enum.mat ([] : List Nat)) = .error .typeErrorEmptyReduce ∧
    aggregate (· + ·) none (Enum.mat ([1, 2, 3] : List Nat)) = .ok 6 ∧
    aggregate (· + ·) (some 10) (Enum.mat ([1, 2, 3] : List Nat)) = .ok 16 :=
  ⟨(aggregate_fold (· + ·) (Enum.mat [])).1 rfl,
   ((aggregate_fold (· + ·) (Enum.mat [1, 2, 3])).2.1 1 [2, 3] rfl).trans rfl,
   ((aggregate_fold (· + ·) (Enum.mat [1, 2, 3])).2.2 10).trans rfl⟩

/-- C4: `__eq__` compares element-wise up to the shorter operand and never
compares lengths, so whenever the element list of one operand is a prefix
of the other's the comparison returns `True`. -/
theorem eq_stops_at_shorter [DecidableEq T] (a b : Enum T)
    (h : (∃ t, enumElems a ++ t = enumElems b) ∨ ∃ t, enumElems b ++ t = enumElems a) :
    pyEq a b = true := by
  rcases h with ⟨t, ht⟩ | ⟨t, ht⟩
  · rw [pyEq, ← ht]
    exact zip_self_append_all_eq _ t
  · rw [pyEq, ← ht]
    exact zip_append_self_all_eq _ t

theorem eq_stops_at_shorter_witness :
    pyEq (Enum.mat ([1, 2] : List Nat)) (Enum.str [1, 2, 3]) = true :=
  eq_stops_at_shorter (Enum.mat [1, 2]) (Enum.str [1, 2, 3]) (Or.inl ⟨[3], rfl⟩)

/-- C5: `first` signals `StopIteration` on an empty source or when no
element satisfies the predicate, and `first_or_default` returns the default
in exactly those situations; any other exception raised by the predicate —
by PEP 479 even a raised `StopIteration` surfaces as `RuntimeError` —
propagates through `first_or_default` unchanged. -/
theorem first_or_default_spec (e : Enum T) (d : T) (p : T → Except PyErr Bool) :
    (enumElems e = [] →
      first none e = .error .stopIteration ∧ first_or_default d none e = .ok d) ∧
    ((∀ x ∈ enumElems e, p x = .ok false) →
      first (some p) e = .error .stopIteration ∧ first_or_default d (some p) e = .ok d) ∧
    (∀ err, first (some p) e = .error err → err ≠ .stopIteration →
      first_or_default d (some p) e = .error err) := by
  refine ⟨fun h => ?_, fun h => ?_, fun err herr hne => ?_⟩
  · constructor
    · simp [first, h]
    · simp [first_or_default, first, h]
  · have hf : first (some p) e = .error .stopIteration := findFirst_all_false p _ h
    exact ⟨hf, by simp [first_or_default, hf]⟩
  · rw [first_or_default, herr]
    cases err with
    | stopIteration => exact absurd rfl hne
    | indexError => rfl
    | valueError => rfl
    | typeErrorEmptyReduce => rfl
    | runtimeError => rfl
    | clientError code => rfl

theorem first_or_default_spec_witness :
    first_or_default 7 none (Enum.mat ([] : List Nat)) = .ok 7 ∧
    first_or_default 7 (some fun _ => .ok false) (Enum.mat ([1, 2] : List Nat)) = .ok 7 ∧
    first_or_default 7 (some fun _ => .error (.clientError 3)) (Enum.mat ([1, 2] : List Nat)) =
      .error (.clientError 3) :=
  ⟨((first_or_default_spec (Enum.mat []) 7 fun _ => .ok false).1 rfl).2,
   ((first_or_default_spec (Enum.mat [1, 2]) 7 fun _ => .ok false).2.1
      (by intro x _; rfl)).2,
   (first_or_default_spec (Enum.mat [1, 2]) 7 fun _ => .error (.clientError 3)).2.2
      (.clientError 3) rfl (by decide)⟩

/-- C9: single-index access past the end of a Streaming instance signals
`StopIteration` (the `islice`-driven pull exhausts the iterator), whereas
the same out-of-bounds access on a Materialized instance signals
`IndexError`. -/
theorem getitem_oob_spec (rem : List T) (i : Int) (h0 : 0 ≤ i) (h : rem.length ≤ i.toNat) :
    (getItemInt (Enum.str rem) i).1 = .error .stopIteration ∧
    ∀ xs : List T, xs.length ≤ i.toNat → (getItemInt (Enum.mat xs) i).1 = .error .indexError := by
  constructor
  · simp [getItemInt, not_lt.mpr h0, List.getElem?_eq_none h]
  · intro xs hxs
    simp [getItemInt, pyListGet, h0, List.getElem?_eq_none hxs]

theorem getitem_oob_spec_witness :
    (getItemInt (Enum.str ([1] : List Nat)) 3).1 = .error .stopIteration ∧
    (getItemInt (Enum.mat ([1] : List Nat)) 3).1 = .error .indexError :=
  ⟨(getitem_oob_spec [1] 3 (by decide) (by decide)).1,
   (getitem_oob_spec ([1] : List Nat) 3 (by decide) (by decide)).2 [1] (by decide)⟩

/-- C10: giving the seed explicitly as `None` is indistinguishable from
omitting it — `None` always takes the no-seed `reduce` path, every seeded
run starts from a non-`None` accumulator `some u`, and on an empty source
an explicit `None` seed still fails with the empty-reduce `TypeError`
rather than returning `None`. -/
theorem aggregate_none_seed {U : Type} (f : Option U → Option U → Option U)
    (e : Enum (Option U)) :
    aggregateOptional f none e = aggregateNoSeedCall f e ∧
    (∀ u, aggregateOptional f (some u) e = .ok ((enumElems e).foldl f (some u))) ∧
    aggregateOptional f none (Enum.mat ([] : List (Option U))) = .error .typeErrorEmptyReduce :=
  ⟨rfl, fun _ => rfl, rfl⟩

theorem aggregate_none_seed_witness :
    aggregateOptional (fun a _ => a) none (Enum.mat ([] : List (Option Nat))) =
      .error .typeErrorEmptyReduce :=
  (aggregate_none_seed (fun a _ => a) (Enum.mat [])).2.2

/-! ## Grouping lemmas -/

theorem insertGroup_keys [DecidableEq R] (c : R) (x : T) :
    ∀ gs : List (R × List T), (insertGroup gs c x).map Prod.fst =
      if c ∈ gs.map Prod.fst then gs.map Prod.fst else gs.map Prod.fst ++ [c]
  | [] => by simp [insertGroup]
  | (c₀, g) :: rest => by
    by_cases h : c₀ = c
    · subst h
      simp [insertGroup]
    · simp only [insertGroup, if_neg h, List.map_cons, List.mem_cons,
        insertGroup_keys c x rest]
      have hcc : ¬c = c₀ := fun hc => h hc.symm
      by_cases hm : c ∈ rest.map Prod.fst
      · simp [hm, hcc]
      · simp [hm, hcc]

theorem seenDedup_congr [DecidableEq R] :
    ∀ (cs s₁ s₂ : List R), (∀ c, c ∈ s₁ ↔ c ∈ s₂) → seenDedup s₁ cs = seenDedup s₂ cs
  | [], _, _, _ => rfl
  | c :: cs, s₁, s₂, hs => by
    by_cases h : c ∈ s₁
    · rw [seenDedup, seenDedup, if_pos h, if_pos ((hs c).mp h)]
      exact seenDedup_congr cs s₁ s₂ hs
    · rw [seenDedup, seenDedup, if_neg h, if_neg fun hc => h ((hs c).mpr hc)]
      exact congrArg (c :: ·) (seenDedup_congr cs (c :: s₁) (c :: s₂)
        (by intro d; simp [hs d]))

theorem build_keys [DecidableEq R] (k : T → R) :
    ∀ (xs : List T) (gs : List (R × List T)),
      ((xs.foldl (fun gs x => insertGroup gs (k x) x) gs).map Prod.fst) =
        gs.map Prod.fst ++ seenDedup (gs.map Prod.fst) (xs.map k)
  | [], gs => by simp [seenDedup]
  | x :: xs, gs => by
    rw [List.foldl_cons, build_keys k xs, List.map_cons, seenDedup]
    by_cases h : k x ∈ gs.map Prod.fst
    · rw [insertGroup_keys, if_pos h, if_pos h]
    · rw [insertGroup_keys, if_neg h, if_neg h,
        seenDedup_congr (xs.map k) (gs.map Prod.fst ++ [k x]) (k x :: gs.map Prod.fst)
          (by intro d; simp [or_comm])]
      simp

theorem seenDedup_nodup [DecidableEq R] :
    ∀ (cs seen : List R), (seenDedup seen cs).Nodup ∧ ∀ c ∈ seenDedup seen cs, c ∉ seen
  | [], _ => ⟨List.nodup_nil, by intro c hc; cases hc⟩
  | c :: cs, seen => by
    by_cases h : c ∈ seen
    · rw [seenDedup, if_pos h]
      exact seenDedup_nodup cs seen
    · rw [seenDedup, if_neg h]
      obtain ⟨hnd, hni⟩ := seenDedup_nodup cs (c :: seen)
      refine ⟨List.nodup_cons.mpr ⟨fun hc => ?_, hnd⟩, ?_⟩
      · exact hni c hc (List.mem_cons_self c seen)
      · intro d hd
        rcases List.mem_cons.mp hd with rfl | hd
        · exact h
        · exact fun hds => hni d hd (List.mem_cons_of_mem c hds)

theorem insertGroup_groupOf [DecidableEq R] (c c' : R) (x : T) :
    ∀ gs : List (R × List T), groupOf (insertGroup gs c x) c' =
      if c = c' then groupOf gs c' ++ [x] else groupOf gs c'
  | [] => by
    by_cases h : c = c' <;> simp [insertGroup, groupOf, h]
  | (c₀, g) :: rest => by
    by_cases h₀ : c₀ = c
    · subst h₀
      by_cases h : c₀ = c' <;> simp [insertGroup, groupOf, h]
    · by_cases h : c₀ = c'
      · subst h
        have hcc : ¬c = c₀ := fun hc => h₀ hc.symm
        simp [insertGroup, h₀, groupOf, hcc]
      · simp [insertGroup, h₀, groupOf, h, insertGroup_groupOf c c' x rest]

theorem build_groupOf [DecidableEq R] (k : T → R) (c : R) :
    ∀ (xs : List T) (gs : List (R × List T)),
      groupOf (xs.foldl (fun gs x => insertGroup gs (k x) x) gs) c =
        groupOf gs c ++ xs.filter fun x => decide (k x = c)
  | [], gs => by simp
  | x :: xs, gs => by
    rw [List.foldl_cons, build_groupOf k c xs, insertGroup_groupOf,
      List.filter_cons]
    by_cases h : k x = c
    · simp [h]
    · simp [h]

theorem mem_groupOf [DecidableEq R] :
    ∀ gs : List (R × List T), (gs.map Prod.fst).Nodup →
      ∀ c g, (c, g) ∈ gs → groupOf gs c = g
  | [], _, c, g, hm => by cases hm
  | (c₀, g₀) :: rest, hnd, c, g, hm => by
    rcases List.mem_cons.mp hm with heq | hm
    · obtain ⟨rfl, rfl⟩ := Prod.mk.injEq .. ▸ heq
      simp [groupOf]
    · have hne : c₀ ≠ c := by
        intro hc
        subst hc
        exact (List.nodup_cons.mp hnd).1
          (List.mem_map.mpr ⟨(c₀, g), hm, rfl⟩)
      rw [groupOf, if_neg hne]
      exact mem_groupOf rest (List.nodup_cons.mp hnd).2 c g hm

theorem insertGroup_join_perm [DecidableEq R] (c : R) (x : T) :
    ∀ gs : List (R × List T),
      List.Perm (((insertGroup gs c x).map Prod.snd).join) (((gs.map Prod.snd).join) ++ [x])
  | [] => by simp [insertGroup]
  | (c₀, g) :: rest => by
    by_cases h : c₀ = c
    · simp only [insertGroup, if_pos h, List.map_cons, List.join_cons]
      simpa [List.append_assoc] using
        List.Perm.append_left g
          (@List.perm_append_comm T [x] ((rest.map Prod.snd).join))
    · simp only [insertGroup, if_neg h, List.map_cons, List.join_cons]
      simpa [List.append_assoc] using
        List.Perm.append_left g (insertGroup_join_perm c x rest)

theorem build_join_perm [DecidableEq R] (k : T → R) :
    ∀ (xs : List T) (gs : List (R × List T)),
      List.Perm (((xs.foldl (fun gs x => insertGroup gs (k x) x) gs).map Prod.snd).join)
        (((gs.map Prod.snd).join) ++ xs)
  | [], gs => by simp
  | x :: xs, gs => by
    rw [List.foldl_cons]
    refine (build_join_perm k xs _).trans ?_
    have h := (insertGroup_join_perm (k x) x gs).append_right xs
    simpa [List.append_assoc] using h

/-- C6: `group_by` consumes the whole source and produces groups whose keys
appear in first-occurrence order and are pairwise distinct, whose contents
are the source elements with that key in source order, and whose
concatenation in group order is a permutation of the source — so every
element lands in exactly one group. -/
theorem group_by_spec [DecidableEq R] (k : T → R) (e : Enum T) :
    (group_by k e).map Prod.fst = firstOccurrences ((enumElems e).map k) ∧
    ((group_by k e).map Prod.fst).Nodup ∧
    (∀ c g, (c, g) ∈ group_by k e →
      g = (enumElems e).filter fun x => decide (k x = c)) ∧
    List.Perm (((group_by k e).map Prod.snd).join) (enumElems e) := by
  have hkeys : (group_by k e).map Prod.fst = firstOccurrences ((enumElems e).map k) := by
    rw [group_by, build_keys k (enumElems e) [], firstOccurrences]
    rfl
  have hnodup : ((group_by k e).map Prod.fst).Nodup := by
    rw [hkeys, firstOccurrences]
    exact (seenDedup_nodup ((enumElems e).map k) []).1
  refine ⟨hkeys, hnodup, fun c g hm => ?_, ?_⟩
  · have h₁ := mem_groupOf (group_by k e) hnodup c g hm
    have h₂ := build_groupOf k c (enumElems e) ([] : List (R × List T))
    rw [group_by] at h₁
    rw [h₂] at h₁
    simpa using h₁.symm
  · have h := build_join_perm k (enumElems e) ([] : List (R × List T))
    rw [group_by]
    simpa using h

theorem group_by_spec_witness :
    ([1, 3] : List Nat) =
      (enumElems (Enum.mat ([1, 2, 3, 4] : List Nat))).filter fun x => decide (x % 2 = 1) :=
  (group_by_spec (fun x => x % 2) (Enum.mat [1, 2, 3, 4])).2.2.1 1 [1, 3] (by decide)

/-! ## Sorting lemmas -/

theorem filter_orderedInsert_key {K : Type} [LinearOrder K] (k : T → K) (c : K) (x : T) :
    ∀ l : List T,
      ((List.orderedInsert (fun a b => k a ≤ k b) x l).filter fun y => decide (k y = c)) =
        if k x = c then x :: l.filter (fun y => decide (k y = c))
        else l.filter fun y => decide (k y = c)
  | [] => by
    by_cases h : k x = c <;> simp [List.orderedInsert, List.filter, h]
  | b :: l => by
    by_cases hxb : k x ≤ k b
    · rw [List.orderedInsert, if_pos hxb]
      by_cases h : k x = c <;> simp [List.filter_cons, h]
    · rw [List.orderedInsert, if_neg hxb]
      have hbx : k b < k x := lt_of_not_le hxb
      by_cases h : k x = c
      · have hbc : ¬k b = c := fun hb => absurd (h ▸ hb ▸ hbx) (lt_irrefl _)
        simp [List.filter_cons, hbc, filter_orderedInsert_key k c x l, h]
      · simp [List.filter_cons, filter_orderedInsert_key k c x l, h]

theorem filter_insertionSort_key {K : Type} [LinearOrder K] (k : T → K) (c : K) :
    ∀ l : List T,
      ((List.insertionSort (fun a b => k a ≤ k b) l).filter fun y => decide (k y = c)) =
        l.filter fun y => decide (k y = c)
  | [] => rfl
  | b :: l => by
    rw [List.insertionSort, filter_orderedInsert_key, List.filter_cons,
      filter_insertionSort_key k c l]
    by_cases h : k b = c <;> simp [h]

/-- C7: `order_by` fully sorts the source non-decreasingly by the selected
key, the output is a permutation of the source, and the sort is stable: for
every key value the elements carrying it appear in the output in exactly
the order they had in the source. -/
theorem order_by_sorted_stable {K : Type} [LinearOrder K] (k : T → K) (e : Enum T) :
    List.Sorted (fun a b => k a ≤ k b) (enumElems (order_by k e)) ∧
    List.Perm (enumElems (order_by k e)) (enumElems e) ∧
    ∀ c : K, ((enumElems (order_by k e)).filter fun x => decide (k x = c)) =
      (enumElems e).filter fun x => decide (k x = c) := by
  haveI htot : IsTotal T fun a b => k a ≤ k b := ⟨fun a b => le_total (k a) (k b)⟩
  haveI htrans : IsTrans T fun a b => k a ≤ k b := ⟨fun _ _ _ hab hbc => le_trans hab hbc⟩
  refine ⟨?_, ?_, fun c => ?_⟩
  · exact List.sorted_insertionSort _ _
  · exact List.perm_insertionSort _ _
  · exact filter_insertionSort_key k c (enumElems e)

theorem order_by_sorted_stable_witness :
    ((enumElems (order_by (fun x => x % 3) (Enum.mat ([3, 1, 4, 1] : List Nat)))).filter
      fun x => decide (x % 3 = 1)) =
      (enumElems (Enum.mat ([3, 1, 4, 1] : List Nat))).filter fun x => decide (x % 3 = 1) :=
  (order_by_sorted_stable (fun x => x % 3) (Enum.mat [3, 1, 4, 1])).2.2 1

/-- C8 (counterexample): for a Streaming source with remaining elements
`[1, 2, 3]` and `n = 1`, evaluating `(S.take(1) + S.skip(1)).to_list()`
yields `[1, 3]`, not `[1, 2, 3]`: both `islice` windows advance the same
shared iterator, so `skip` discards the element after the taken prefix. -/
theorem take_add_skip_streaming_cex :
    take_add_skip_str ([1, 2, 3] : List Nat) 1 = [1, 3] ∧
    take_add_skip_str ([1, 2, 3] : List Nat) 1 ≠ [1, 2, 3] := by
  exact ⟨rfl, by decide⟩

/-- C8 (amended): for a Materialized S and `0 ≤ n ≤ len(S)`, the
concatenation `S.take(n) + S.skip(n)` read as a sequence equals S; for a
Streaming S the two slices share the single iterator and the composite
yields the first `n` elements followed by the elements from position `2n`
onward. -/
theorem take_add_skip_spec (xs : List T) (n : Int) (h0 : 0 ≤ n)
    (h1 : n.toNat ≤ xs.length) :
    ((take (Enum.mat xs) n).map fun e₁ =>
      (skip (Enum.mat xs) n).map fun e₂ => enumElems (pyAdd e₁ e₂)) = .ok (.ok xs) ∧
    take_add_skip_str xs n.toNat = xs.take n.toNat ++ xs.drop (n.toNat + n.toNat) := by
  constructor
  · have ht : pySliceTake xs n = xs.take n.toNat := by simp [pySliceTake, h0]
    have hd : pySliceDrop xs n = xs.drop n.toNat := by simp [pySliceDrop, h0]
    simp [take, skip, Except.map, pyAdd, enumElems, ht, hd, List.take_append_drop]
  · have hdd : (xs.drop n.toNat).drop n.toNat = xs.drop (n.toNat + n.toNat) := by
      rw [List.drop_drop, Nat.add_comm]
    simp [take_add_skip_str, hdd]

theorem take_add_skip_spec_witness :
    ((take (Enum.mat ([1, 2, 3] : List Nat)) 1).map fun e₁ =>
      (skip (Enum.mat ([1, 2, 3] : List Nat)) 1).map fun e₂ => enumElems (pyAdd e₁ e₂)) =
      .ok (.ok [1, 2, 3]) :=
  (take_add_skip_spec [1, 2, 3] 1 (by decide) (by decide)).1

end PyLinq
